import Mathlib

/-!
Verification of the bounded binary min-heap in `src/ruby/command-t/heap.c`.

The heap state is embedded shallowly: `entries` models the live prefix
`entries[0..count)` of the C backing store as a list whose length is `count`
(slots at and beyond `count` are never read before being written, so they are
not observable and are omitted).  Element handles (`void *` in the source) are
an arbitrary inhabited type; the `Inhabited` default plays the role of the
null pointer, which is what `heap_extract` returns for an empty heap.

The two loops (`heap_insert`'s sift-up and the recursive `heap_heapify`) are
rendered with an explicit iteration budget so that every definition is
structurally recursive and kernel-computable; the budgets supplied at the call
sites (`idx` iterations for sift-up, `l.length` levels for heapify) strictly
dominate the number of iterations the C loops can perform, and all of the
theorems below about the budgeted recursions hold for every budget.
-/

namespace CommandT

/-- A heap as in `heap.c`: a fixed `capacity`, the injected three-way
`comparator`, and the live prefix `entries[0..count)` of the backing store
(so `count = entries.length`). -/
structure Heap (α : Type) where
  capacity : Nat
  comparator : α → α → Int
  entries : List α

variable {α : Type} [Inhabited α]

/-- `heap_new`: a fresh heap with `count = 0` and the given capacity and
comparator. -/
def heap_new (capacity : Nat) (comparator : α → α → Int) : Heap α :=
  ⟨capacity, comparator, []⟩

/-- `heap_compare`: the comparator applied to the entries at indices
`a_idx` and `b_idx`. -/
def hcompare (cmp : α → α → Int) (l : List α) (a_idx b_idx : Nat) : Int :=
  cmp (l.getD a_idx default) (l.getD b_idx default)

/-- `heap_property`: true iff the parent strictly precedes the child, i.e. the
comparator returns `-1` (note: a tie, comparator `0`, does NOT satisfy this). -/
def hproperty (cmp : α → α → Int) (l : List α) (parent_idx child_idx : Nat) : Bool :=
  hcompare cmp l parent_idx child_idx == -1

/-- `heap_swap`: exchange the entries at indices `a` and `b` (the second write
uses the value of `entries[a]` saved before the first write, as in the C
`tmp` variable). -/
def hswap (l : List α) (a b : Nat) : List α :=
  (l.set a (l.getD b default)).set b (l.getD a default)

/-- The sift-up loop of `heap_insert`.  The C loop is
`while (idx && !heap_property(heap, parent_idx, idx))`; the loop index
strictly decreases to the parent `(idx - 1) / 2` each iteration, so a budget
of `idx` iterations always suffices. -/
def sift_up (cmp : α → α → Int) : Nat → List α → Nat → List α
  | 0, l, _ => l
  | fuel + 1, l, idx =>
    if idx ≠ 0 ∧ hproperty cmp l ((idx - 1) / 2) idx = false then
      sift_up cmp fuel (hswap l idx ((idx - 1) / 2)) ((idx - 1) / 2)
    else l

/-- `heap_insert`: a silent no-op at capacity; otherwise place the value in
slot `count` (modelled by appending), increment `count`, and sift up. -/
def heap_insert (h : Heap α) (value : α) : Heap α :=
  if h.entries.length = h.capacity then h
  else
    { h with
      entries := sift_up h.comparator h.entries.length (h.entries ++ [value]) h.entries.length }

/-- The `smallest_idx` selection of `heap_heapify`, rendered faithfully from
the source expression
`right_idx < heap->count ? (heap_compare(heap, left_idx, right_idx == -1) ? left_idx : right_idx) : (left_idx < heap->count ? left_idx : idx)`.
Since `right_idx = 2 * idx + 2` is never `-1`, the subexpression
`right_idx == -1` is the constant `0`, so when both children exist the code
compares the LEFT CHILD against INDEX 0 and picks the left child exactly when
that comparison is non-zero. -/
def smallest_idx (cmp : α → α → Int) (l : List α) (idx : Nat) : Nat :=
  if 2 * idx + 2 < l.length then
    if hcompare cmp l (2 * idx + 1) 0 ≠ 0 then 2 * idx + 1 else 2 * idx + 2
  else if 2 * idx + 1 < l.length then
    2 * idx + 1
  else
    idx

/-- `heap_heapify`: swap with `smallest_idx` and recurse while `smallest_idx`
differs from `idx` and the (strict) heap property fails between them.  The
recursion index strictly increases and stays below `l.length`, so a budget of
`l.length` levels always suffices. -/
def heap_heapify (cmp : α → α → Int) : Nat → List α → Nat → List α
  | 0, l, _ => l
  | fuel + 1, l, idx =>
    if smallest_idx cmp l idx ≠ idx ∧ hproperty cmp l idx (smallest_idx cmp l idx) = false then
      heap_heapify cmp fuel (hswap l idx (smallest_idx cmp l idx)) (smallest_idx cmp l idx)
    else l

/-- The re-heapify loop of `heap_bulk_insert`:
`for (i = (heap->count - 1) / 2; i >= 0; i--) heap_heapify(heap, i);`
i.e. `heap_heapify` at indices `n - 1, n - 2, ..., 0` where the wrapper below
passes `n = (count - 1) / 2 + 1` (the loop body runs at least once, at `i = 0`,
exactly as the C `long` loop does even for an empty heap). -/
def heapify_from (cmp : α → α → Int) : Nat → List α → List α
  | 0, l => l
  | i + 1, l => heapify_from cmp i (heap_heapify cmp l.length l i)

/-- The number of values `heap_bulk_insert` actually copies:
`long available = heap->capacity - heap->count;`
`long limit = available > count ? count : available;`. -/
def bulk_limit (h : Heap α) (values : List α) : Nat :=
  if h.capacity - h.entries.length > values.length then values.length
  else h.capacity - h.entries.length

/-- `heap_bulk_insert`: append as many leading values as fit into the
remaining capacity (excess values are silently dropped), then re-establish the
heap property bottom-up over the whole store. -/
def heap_bulk_insert (h : Heap α) (values : List α) : Heap α :=
  { h with
    entries := heapify_from h.comparator
      (((h.entries ++ values.take (bulk_limit h values)).length - 1) / 2 + 1)
      (h.entries ++ values.take (bulk_limit h values)) }

/-- `heap_extract`: `default` (the model's NULL) when empty; otherwise return
`entries[0]`, move `entries[count - 1]` into slot 0, decrement `count`, and
heapify from the root. -/
def heap_extract (h : Heap α) : α × Heap α :=
  if h.entries.length ≠ 0 then
    let extracted := h.entries.getD 0 default
    let moved := (h.entries.set 0 (h.entries.getD (h.entries.length - 1) default)).dropLast
    (extracted, { h with entries := heap_heapify h.comparator moved.length moved 0 })
  else
    (default, h)

/-- `heap_extract` iterated `n` times, collecting the returned values in call
order together with the final heap. -/
def extractN : Nat → Heap α → List α × Heap α
  | 0, h => ([], h)
  | n + 1, h =>
    let r := heap_extract h
    let rest := extractN n r.2
    (r.1 :: rest.1, rest.2)

/-- Three-way comparator on integers, ascending. -/
def intCmp (a b : Int) : Int :=
  if a < b then -1 else if b < a then 1 else 0

/-- Three-way comparator on naturals, ascending (handles modelled as `Nat`,
with `0` as the null handle). -/
def natCmp (a b : Nat) : Int :=
  if a < b then -1 else if b < a then 1 else 0

/-- Comparator on (key, tag) pairs that ranks by key only, so distinct handles
can be equal-ranked. -/
def keyCmp (a b : Nat × Nat) : Int :=
  if a.1 < b.1 then -1 else if b.1 < a.1 then 1 else 0

/-- The concrete run used against claims C1 and C2: the values 1, 4, 2, 5, 3
inserted one at a time into an empty capacity-5 integer heap. -/
def exHeap : Heap Int :=
  List.foldl heap_insert (heap_new 5 intCmp) [1, 4, 2, 5, 3]

/-- A reachable two-element heap holding two distinguishable equal-ranked
handles: inserting (5,0) then (5,1) swaps them (the strict `heap_property`
fails on the tie), leaving entries [(5,1), (5,0)] with the heap full. -/
def tieHeap : Heap (Nat × Nat) :=
  List.foldl heap_insert (heap_new 2 keyCmp) [(5, 0), (5, 1)]

/-- A reachable one-element heap holding the single handle (5,0), with spare
capacity. -/
def oneHeap : Heap (Nat × Nat) :=
  heap_insert (heap_new 2 keyCmp) (5, 0)

/-- Sequential insertion of 2, 3, 1 into an empty capacity-3 integer heap
(used against claim C5). -/
def seqHeap3 : Heap Int :=
  List.foldl heap_insert (heap_new 3 intCmp) [2, 3, 1]

/-- Bulk insertion of 2, 3, 1 into an empty capacity-3 integer heap
(used against claim C5). -/
def bulkHeap3 : Heap Int :=
  heap_bulk_insert (heap_new 3 intCmp) [2, 3, 1]

/-- A reachable heap over `Nat` handles that stores the null handle `0` as its
minimum (used against claim C10). -/
def nullHeap : Heap Nat :=
  List.foldl heap_insert (heap_new 2 natCmp) [5, 0]

/-- A small concrete heap with spare capacity, used to witness the generic
theorems on concrete inputs. -/
def smallHeap : Heap Int := ⟨3, intCmp, [1, 2]⟩

/-- A request sent to the insertion interface: a single `heap_insert` or one
`heap_bulk_insert` with a list of values. -/
inductive InsOp (α : Type) where
  | ins (value : α)
  | bulk (values : List α)

/-- Apply one insertion request to a heap. -/
def applyInsOp (h : Heap α) : InsOp α → Heap α
  | InsOp.ins value => heap_insert h value
  | InsOp.bulk values => heap_bulk_insert h values

/-- Sift-up as worded by the amended claim C4: repeatedly swap the new
element with its parent `(index - 1) / 2` exactly while the comparator applied
to (parent, child) returns something other than `-1` (so a tie, comparator
`0`, also swaps), stopping at the root or once the comparator returns `-1`. -/
def sift_up_spec (cmp : α → α → Int) : Nat → List α → Nat → List α
  | 0, l, _ => l
  | fuel + 1, l, idx =>
    if idx ≠ 0 ∧ cmp (l.getD ((idx - 1) / 2) default) (l.getD idx default) ≠ -1 then
      sift_up_spec cmp fuel (hswap l idx ((idx - 1) / 2)) ((idx - 1) / 2)
    else l

/-- Insert as worded by the amended claim C4: below capacity, place the value
at slot `count`, increment `count`, and run the amended sift-up. -/
def heap_insert_spec (h : Heap α) (value : α) : Heap α :=
  if h.entries.length = h.capacity then h
  else
    { h with
      entries :=
        sift_up_spec h.comparator h.entries.length (h.entries ++ [value]) h.entries.length }

/-- Swapping two entries preserves the length of the store. -/
@[simp]
theorem hswap_length (l : List α) (a b : Nat) : (hswap l a b).length = l.length := by
  simp [hswap]

/-- The sift-up loop preserves the length of the store. -/
theorem sift_up_length (cmp : α → α → Int) (fuel : Nat) :
    ∀ (l : List α) (idx : Nat), (sift_up cmp fuel l idx).length = l.length := by
  induction fuel with
  | zero => intro l idx; rfl
  | succ fuel ih =>
    intro l idx
    simp only [sift_up]
    split
    · rw [ih, hswap_length]
    · rfl

/-- Sift-down preserves the length of the store. -/
theorem heap_heapify_length (cmp : α → α → Int) (fuel : Nat) :
    ∀ (l : List α) (idx : Nat), (heap_heapify cmp fuel l idx).length = l.length := by
  induction fuel with
  | zero => intro l idx; rfl
  | succ fuel ih =>
    intro l idx
    simp only [heap_heapify]
    split
    · rw [ih, hswap_length]
    · rfl

/-- The bottom-up re-heapify loop preserves the length of the store. -/
theorem heapify_from_length (cmp : α → α → Int) (n : Nat) :
    ∀ (l : List α), (heapify_from cmp n l).length = l.length := by
  induction n with
  | zero => intro l; rfl
  | succ n ih =>
    intro l
    simp only [heapify_from]
    rw [ih, heap_heapify_length]

/-- When `smallest_idx` differs from `idx` it is one of the two children, so
it lies strictly between `idx` and the length of the store. -/
theorem smallest_idx_bounds (cmp : α → α → Int) (l : List α) (idx : Nat)
    (hne : smallest_idx cmp l idx ≠ idx) :
    idx < smallest_idx cmp l idx ∧ smallest_idx cmp l idx < l.length := by
  simp only [smallest_idx] at hne ⊢
  split_ifs at hne ⊢ <;> omega

/-- Overwriting position `j` while keeping the displaced element produces a
permutation: the displaced element consed on the updated list is a permutation
of the new element consed on the original. -/
theorem getD_cons_set_perm (x : α) :
    ∀ (l : List α) (j : Nat), j < l.length →
      ((l.getD j default) :: l.set j x).Perm (x :: l) := by
  intro l
  induction l with
  | nil => intro j hj; simp at hj
  | cons a t ih =>
    intro j hj
    cases j with
    | zero =>
      simp only [List.getD_cons_zero, List.set]
      exact List.Perm.swap x a t
    | succ j =>
      simp only [List.getD_cons_succ, List.set_cons_succ]
      have h1 : (t.getD j default :: a :: t.set j x).Perm (a :: t.getD j default :: t.set j x) :=
        List.Perm.swap a (t.getD j default) (t.set j x)
      have h2 : (a :: t.getD j default :: t.set j x).Perm (a :: x :: t) :=
        (ih j (by simpa using hj)).cons a
      have h3 : (a :: x :: t).Perm (x :: a :: t) := List.Perm.swap x a t
      exact (h1.trans h2).trans h3

/-- `heap_swap` at two distinct in-range indices permutes the store. -/
theorem hswap_perm (l : List α) (a b : Nat) (hab : a ≠ b)
    (ha : a < l.length) (hb : b < l.length) : (hswap l a b).Perm l := by
  have h1 : (l.set a (l.getD b default)).getD b default = l.getD b default := by
    rw [List.getD_eq_getElem?_getD, List.getD_eq_getElem?_getD, List.getElem?_set_ne hab]
  have h2 := getD_cons_set_perm (l.getD a default) (l.set a (l.getD b default)) b
    (by simpa using hb)
  rw [h1] at h2
  have h3 := getD_cons_set_perm (l.getD b default) l a ha
  exact (h2.trans h3).cons_inv

/-- Sift-down permutes the store (for any iteration budget). -/
theorem heap_heapify_perm (cmp : α → α → Int) (fuel : Nat) :
    ∀ (l : List α) (idx : Nat), (heap_heapify cmp fuel l idx).Perm l := by
  induction fuel with
  | zero => intro l idx; exact List.Perm.refl _
  | succ fuel ih =>
    intro l idx
    simp only [heap_heapify]
    split
    case isTrue hc =>
      obtain ⟨h1, h2⟩ := smallest_idx_bounds cmp l idx hc.1
      exact (ih _ _).trans
        (hswap_perm l idx (smallest_idx cmp l idx) (by omega) (by omega) h2)
    case isFalse => exact List.Perm.refl _

/-- The bottom-up re-heapify loop permutes the store. -/
theorem heapify_from_perm (cmp : α → α → Int) (n : Nat) :
    ∀ (l : List α), (heapify_from cmp n l).Perm l := by
  induction n with
  | zero => intro l; exact List.Perm.refl _
  | succ n ih =>
    intro l
    exact (ih _).trans (heap_heapify_perm cmp l.length l n)

/-- The sift-up loop permutes the store when started in range. -/
theorem sift_up_perm (cmp : α → α → Int) (fuel : Nat) :
    ∀ (l : List α) (idx : Nat), idx < l.length → (sift_up cmp fuel l idx).Perm l := by
  induction fuel with
  | zero => intro l idx _; exact List.Perm.refl _
  | succ fuel ih =>
    intro l idx hidx
    simp only [sift_up]
    split
    case isTrue hc =>
      have hz : idx ≠ 0 := hc.1
      have hp : (idx - 1) / 2 < idx := by omega
      exact (ih _ _ (by simpa using lt_trans hp hidx)).trans
        (hswap_perm l idx ((idx - 1) / 2) (by omega) hidx (by omega))
    case isFalse => exact List.Perm.refl _

/-- On a non-empty heap, `heap_extract` returns the root entry. -/
theorem heap_extract_fst (h : Heap α) (hne : h.entries ≠ []) :
    (heap_extract h).1 = h.entries.getD 0 default := by
  have hlen : h.entries.length ≠ 0 := by
    simpa [List.length_eq_zero] using hne
  simp [heap_extract, hlen]

/-- On a non-empty heap, the store left by `heap_extract` is the result of
moving the last entry to the root, shortening by one, and sifting down. -/
theorem heap_extract_snd_entries (h : Heap α) (hne : h.entries ≠ []) :
    (heap_extract h).2.entries =
      heap_heapify h.comparator
        ((h.entries.set 0 (h.entries.getD (h.entries.length - 1) default)).dropLast).length
        ((h.entries.set 0 (h.entries.getD (h.entries.length - 1) default)).dropLast) 0 := by
  have hlen : h.entries.length ≠ 0 := by
    simpa [List.length_eq_zero] using hne
  simp [heap_extract, hlen]

/-- Moving the last entry over the root and dropping the freed final slot
loses exactly one occurrence of the old root: consing the old root back on
gives a permutation of the original store. -/
theorem cons_moved_perm (l : List α) (hne : l ≠ []) :
    (l.getD 0 default ::
      (l.set 0 (l.getD (l.length - 1) default)).dropLast).Perm l := by
  cases l with
  | nil => exact absurd rfl hne
  | cons x t =>
    rcases List.eq_nil_or_concat t with rfl | ⟨s, y, rfl⟩
    · simp
    · have hv : (x :: s.concat y).getD ((x :: s.concat y).length - 1) default = y := by
        have hlen : (x :: s.concat y).length - 1 = s.length + 1 := by
          simp [List.concat_eq_append]
        rw [hlen, List.concat_eq_append, List.getD_cons_succ,
          List.getD_eq_getElem?_getD, List.getElem?_concat_length]
        rfl
      rw [hv]
      simp only [List.concat_eq_append, List.getD_cons_zero, List.set]
      rw [List.dropLast_cons_of_ne_nil (by simp), List.dropLast_concat]
      exact List.Perm.cons x (List.perm_append_singleton y s).symm

/-- `heap_insert` never changes the capacity. -/
theorem heap_insert_capacity (h : Heap α) (value : α) :
    (heap_insert h value).capacity = h.capacity := by
  simp only [heap_insert]
  split <;> rfl

/-- `heap_insert` never changes the comparator. -/
theorem heap_insert_comparator (h : Heap α) (value : α) :
    (heap_insert h value).comparator = h.comparator := by
  simp only [heap_insert]
  split <;> rfl

/-- `heap_insert` increments the count below capacity and keeps it at
capacity otherwise. -/
theorem heap_insert_length (h : Heap α) (value : α) :
    (heap_insert h value).entries.length =
      if h.entries.length = h.capacity then h.entries.length
      else h.entries.length + 1 := by
  simp only [heap_insert]
  split
  · rfl
  · simp [sift_up_length]

/-- `heap_bulk_insert` never changes the capacity. -/
theorem heap_bulk_insert_capacity (h : Heap α) (values : List α) :
    (heap_bulk_insert h values).capacity = h.capacity := rfl

/-- `heap_bulk_insert` never changes the comparator. -/
theorem heap_bulk_insert_comparator (h : Heap α) (values : List α) :
    (heap_bulk_insert h values).comparator = h.comparator := rfl

omit [Inhabited α] in
/-- The number of copied values is `min (length values) (capacity - count)`. -/
theorem bulk_limit_eq_min (h : Heap α) (values : List α) :
    bulk_limit h values = min values.length (h.capacity - h.entries.length) := by
  simp only [bulk_limit]
  split <;> omega

/-- `heap_bulk_insert` grows the count by exactly the number of values that
fit in the remaining capacity. -/
theorem heap_bulk_insert_length (h : Heap α) (values : List α) :
    (heap_bulk_insert h values).entries.length =
      h.entries.length + min values.length (h.capacity - h.entries.length) := by
  simp only [heap_bulk_insert, heapify_from_length, List.length_append,
    List.length_take, bulk_limit_eq_min]
  omega

/-- The store left by `heap_bulk_insert` is a permutation of the old store
followed by the accepted leading values. -/
theorem heap_bulk_insert_perm (h : Heap α) (values : List α) :
    (heap_bulk_insert h values).entries.Perm
      (h.entries ++ values.take (min values.length (h.capacity - h.entries.length))) := by
  simpa only [heap_bulk_insert, bulk_limit_eq_min] using
    heapify_from_perm h.comparator _
      (h.entries ++ values.take (min values.length (h.capacity - h.entries.length)))

/-- Insertion requests never change the capacity. -/
theorem applyInsOp_capacity (h : Heap α) (op : InsOp α) :
    (applyInsOp h op).capacity = h.capacity := by
  cases op with
  | ins value => exact heap_insert_capacity h value
  | bulk values => exact heap_bulk_insert_capacity h values

/-- Insertion requests keep the count within capacity. -/
theorem applyInsOp_le (h : Heap α) (op : InsOp α)
    (hle : h.entries.length ≤ h.capacity) :
    (applyInsOp h op).entries.length ≤ h.capacity := by
  cases op with
  | ins value =>
    rw [applyInsOp, heap_insert_length]
    split <;> omega
  | bulk values =>
    rw [applyInsOp, heap_bulk_insert_length]
    omega

/-- Any finite sequence of insertion requests keeps the count within the
original capacity. -/
theorem foldl_applyInsOp_le (ops : List (InsOp α)) :
    ∀ (h : Heap α), h.entries.length ≤ h.capacity →
      (List.foldl applyInsOp h ops).entries.length ≤ h.capacity := by
  induction ops with
  | nil => intro h hle; exact hle
  | cons op ops ih =>
    intro h hle
    have step : (applyInsOp h op).entries.length ≤ (applyInsOp h op).capacity := by
      rw [applyInsOp_capacity]
      exact applyInsOp_le h op hle
    have := ih (applyInsOp h op) step
    rwa [applyInsOp_capacity] at this

/-- The source sift-up loop coincides with the amended claim's description:
its guard `!heap_property(parent, idx)` is exactly `comparator(parent, idx) ≠ -1`. -/
theorem sift_up_eq_spec (cmp : α → α → Int) (fuel : Nat) :
    ∀ (l : List α) (idx : Nat), sift_up cmp fuel l idx = sift_up_spec cmp fuel l idx := by
  induction fuel with
  | zero => intro l idx; rfl
  | succ fuel ih =>
    intro l idx
    have hcond : (idx ≠ 0 ∧ hproperty cmp l ((idx - 1) / 2) idx = false) ↔
        (idx ≠ 0 ∧
          cmp (l.getD ((idx - 1) / 2) default) (l.getD idx default) ≠ -1) := by
      simp [hproperty, hcompare]
    simp only [sift_up, sift_up_spec]
    exact if_congr hcond (ih _ _) rfl

/-- C1: the claimed heap-property invariant fails on the code.  Inserting
1, 4, 2, 5, 3 one at a time into an empty capacity-5 heap yields the valid
store [1, 3, 2, 5, 4], but a single `heap_extract` leaves [3, 4, 2, 5], in
which index 2 has parent `HEAP_PARENT(2) = 0` and
`comparator(entries[0], entries[2]) = comparator(3, 2) = +1`; moreover
`entries[0] = 3` is not a minimum, since the stored handle 2 ranks strictly
below it.  The cause is the `heap_compare(heap, left_idx, right_idx == -1)`
expression in `heap_heapify`, which compares the left child against index 0
instead of against the right child. -/
theorem c1_heap_property_violated :
    exHeap.entries = [1, 3, 2, 5, 4] ∧
    (heap_extract exHeap).2.entries = [3, 4, 2, 5] ∧
    hcompare intCmp (heap_extract exHeap).2.entries ((2 - 1) / 2) 2 = 1 ∧
    intCmp ((heap_extract exHeap).2.entries.getD 2 0)
      ((heap_extract exHeap).2.entries.getD 0 0) = -1 := by decide

/-- C2: min-extraction order fails on the code.  Inserting 1, 4, 2, 5, 3 into
an empty capacity-5 heap and extracting five times returns [1, 3, 4, 2, 5],
in which the third extracted value ranks strictly above the fourth
(`comparator(4, 2) = +1`), so the sequence is not non-decreasing. -/
theorem c2_extraction_order_violated :
    (extractN 5 exHeap).1 = [1, 3, 4, 2, 5] ∧
    intCmp ((extractN 5 exHeap).1.getD 2 0) ((extractN 5 exHeap).1.getD 3 0) = 1 := by decide

/-- C3: heapify child selection fails on the code.  On the store [4, 3, 2] at
index 0 both children are in range and the right child (entries[2] = 2) ranks
strictly below the left child (entries[1] = 3) and below the parent, so the
claim requires `smallest` to be index 2; the code instead selects index 1
(because `heap_compare(heap, left_idx, right_idx == -1)` compares the left
child against index 0 and tests for non-zero) and produces [3, 4, 2] rather
than a valid heap. -/
theorem c3_heapify_child_selection :
    2 * 0 + 2 < ([4, 3, 2] : List Int).length ∧
    intCmp (([4, 3, 2] : List Int).getD 2 0) (([4, 3, 2] : List Int).getD 1 0) = -1 ∧
    intCmp (([4, 3, 2] : List Int).getD 2 0) (([4, 3, 2] : List Int).getD 0 0) = -1 ∧
    smallest_idx intCmp [4, 3, 2] 0 = 1 ∧
    heap_heapify intCmp 3 [4, 3, 2] 0 = [3, 4, 2] := by decide

/-- C4 counterexample: the claim says that when the parent compares equal to
the new element (comparator 0) no swap occurs, which would leave the store
[(5, 0), (5, 1)] after inserting the equal-ranked handle (5, 1) below the
stored (5, 0); the code does swap on the tie (its guard is
`comparator(parent, child) != -1`, not `== +1`), producing [(5, 1), (5, 0)]. -/
theorem c4_counterexample_tie_swaps :
    oneHeap.entries = [(5, 0)] ∧
    keyCmp (5, 0) (5, 1) = 0 ∧
    (heap_insert oneHeap (5, 1)).entries = [(5, 1), (5, 0)] ∧
    (heap_insert oneHeap (5, 1)).entries ≠ [(5, 0), (5, 1)] := by decide

/-- C4 (amended): below capacity, `heap_insert` places the value at slot
`count`, increments `count`, and then swaps the new element with its parent
`(index - 1) / 2` exactly while `comparator(parent, child) ≠ -1` — in
particular it DOES swap when the comparator returns 0 — stopping at the root
or as soon as the comparator returns -1; at capacity it is a no-op.  This is
stated as equality with `heap_insert_spec`, the verbatim rendering of that
description. -/
theorem c4_insert_sift_up_amended (h : Heap α) (value : α) :
    heap_insert h value = heap_insert_spec h value := by
  simp only [heap_insert, heap_insert_spec, sift_up_eq_spec]

/-- C5: bulk/sequential equivalence fails on the code.  Starting from an
empty capacity-3 heap, `heap_bulk_insert [2, 3, 1]` followed by three
extractions yields [2, 1, 3], while three `heap_insert` calls with the same
values followed by the same three extractions yield [1, 2, 3]. -/
theorem c5_bulk_vs_sequential_differ :
    (extractN 3 bulkHeap3).1 = [2, 1, 3] ∧
    (extractN 3 seqHeap3).1 = [1, 2, 3] ∧
    (extractN 3 bulkHeap3).1 ≠ (extractN 3 seqHeap3).1 := by decide

/-- C6 counterexample: on a full heap holding two distinguishable
equal-ranked handles, `heap_bulk_insert` copies nothing but still runs the
re-heapify loop, which swaps the tied root/child pair (the strict
`heap_property` fails on ties), so the observable order of
`entries[0..count)` changes — the call is not a no-op as claimed. -/
theorem c6_counterexample_bulk_full_reorders :
    tieHeap.entries.length = tieHeap.capacity ∧
    tieHeap.entries = [(5, 1), (5, 0)] ∧
    (heap_bulk_insert tieHeap [(7, 0)]).entries = [(5, 0), (5, 1)] ∧
    (heap_bulk_insert tieHeap [(7, 0)]).entries ≠ tieHeap.entries := by decide

/-- C6 (amended): on a full heap, `heap_insert` leaves the heap entirely
unchanged; `heap_bulk_insert` inserts nothing — capacity, comparator and
count are unchanged and the store stays a permutation of the old store — but
its unconditional re-heapify pass may reorder `entries[0..count)`, so the
order is not always identical. -/
theorem c6_full_heap_inserts (h : Heap α) (value : α) (values : List α)
    (hfull : h.entries.length = h.capacity) :
    heap_insert h value = h ∧
    (heap_bulk_insert h values).capacity = h.capacity ∧
    (heap_bulk_insert h values).comparator = h.comparator ∧
    (heap_bulk_insert h values).entries.length = h.entries.length ∧
    (heap_bulk_insert h values).entries.Perm h.entries := by
  refine ⟨by simp [heap_insert, hfull], rfl, rfl, ?_, ?_⟩
  · rw [heap_bulk_insert_length, hfull]
    simp
  · have hperm := heap_bulk_insert_perm h values
    rw [hfull, Nat.sub_self, Nat.min_zero, List.take_zero, List.append_nil] at hperm
    exact hperm

/-- Witness for C6 on a concrete full heap. -/
theorem c6_full_heap_inserts_witness :
    tieHeap.entries.length = tieHeap.capacity ∧
    heap_insert tieHeap (9, 9) = tieHeap ∧
    (heap_bulk_insert tieHeap [(7, 0)]).entries.Perm tieHeap.entries :=
  ⟨by decide, (c6_full_heap_inserts tieHeap (9, 9) [(7, 0)] (by decide)).1,
    (c6_full_heap_inserts tieHeap (9, 9) [(7, 0)] (by decide)).2.2.2.2⟩

/-- C7: `heap_bulk_insert` copies exactly
`min (length values) (capacity - count)` values — the leading ones of the
list (the store afterwards is a permutation of the old store followed by
exactly that prefix) — so the new count is the old count plus that minimum;
consequently any sequence of `heap_insert` / `heap_bulk_insert` calls starting
from `heap_new` keeps the count within capacity. -/
theorem c7_bulk_truncation_and_capacity_bound :
    (∀ (h : Heap α) (values : List α),
      (heap_bulk_insert h values).entries.length =
        h.entries.length + min values.length (h.capacity - h.entries.length) ∧
      (heap_bulk_insert h values).entries.Perm
        (h.entries ++ values.take (min values.length (h.capacity - h.entries.length)))) ∧
    (∀ (capacity : Nat) (comparator : α → α → Int) (ops : List (InsOp α)),
      (List.foldl applyInsOp (heap_new capacity comparator) ops).entries.length ≤
        capacity) := by
  refine ⟨fun h values => ⟨heap_bulk_insert_length h values, heap_bulk_insert_perm h values⟩, ?_⟩
  intro capacity comparator ops
  exact foldl_applyInsOp_le ops (heap_new capacity comparator) (Nat.zero_le capacity)

/-- C8: on an empty heap, `heap_extract` returns the distinguished empty
signal (the model's null handle, `default`) and leaves the heap unchanged,
and every further `heap_extract` keeps doing so with the count staying 0. -/
theorem c8_empty_extract :
    (∀ h : Heap α, h.entries.length = 0 → heap_extract h = ((default : α), h)) ∧
    (∀ (h : Heap α) (n : Nat), h.entries.length = 0 →
      extractN n h = (List.replicate n (default : α), h)) := by
  have base : ∀ h : Heap α, h.entries.length = 0 → heap_extract h = ((default : α), h) := by
    intro h hlen
    simp [heap_extract, hlen]
  refine ⟨base, ?_⟩
  intro h n hlen
  induction n with
  | zero => rfl
  | succ n ih =>
    show ((heap_extract h).1 :: (extractN n (heap_extract h).2).1,
      (extractN n (heap_extract h).2).2) = _
    rw [base h hlen]
    simp only [ih, List.replicate_succ]

/-- Witness for C8 on a concrete empty heap. -/
theorem c8_empty_extract_witness :
    (heap_new 3 intCmp).entries.length = 0 ∧
    heap_extract (heap_new 3 intCmp) = ((default : Int), heap_new 3 intCmp) ∧
    extractN 2 (heap_new 3 intCmp) = (List.replicate 2 (default : Int), heap_new 3 intCmp) :=
  ⟨rfl, c8_empty_extract.1 (heap_new 3 intCmp) rfl,
    c8_empty_extract.2 (heap_new 3 intCmp) 2 rfl⟩

/-- C9: below capacity, `heap_insert` leaves the store a permutation of the
old store plus the inserted value; on a non-empty heap, `heap_extract`
returns the old root and leaves the store a permutation of the old store
minus that one occurrence (the returned value consed on the new store is a
permutation of the old store) — no handle is duplicated, invented or lost. -/
theorem c9_multiset_preservation :
    (∀ (h : Heap α) (value : α), h.entries.length < h.capacity →
      (heap_insert h value).entries.Perm (value :: h.entries)) ∧
    (∀ h : Heap α, h.entries ≠ [] →
      (heap_extract h).1 = h.entries.getD 0 default ∧
      ((heap_extract h).1 :: (heap_extract h).2.entries).Perm h.entries) := by
  constructor
  · intro h value hlt
    have hne : ¬h.entries.length = h.capacity := by omega
    have hent : (heap_insert h value).entries =
        sift_up h.comparator h.entries.length (h.entries ++ [value]) h.entries.length := by
      simp [heap_insert, hne]
    rw [hent]
    exact (sift_up_perm h.comparator h.entries.length (h.entries ++ [value])
      h.entries.length (by simp)).trans (List.perm_append_singleton value h.entries)
  · intro h hne
    refine ⟨heap_extract_fst h hne, ?_⟩
    rw [heap_extract_fst h hne, heap_extract_snd_entries h hne]
    exact ((heap_heapify_perm h.comparator _ _ 0).cons _).trans
      (cons_moved_perm h.entries hne)

/-- Witness for C9 on a concrete heap. -/
theorem c9_multiset_preservation_witness :
    (smallHeap.entries.length < smallHeap.capacity ∧
      (heap_insert smallHeap 0).entries.Perm (0 :: smallHeap.entries)) ∧
    (smallHeap.entries ≠ [] ∧
      (heap_extract smallHeap).1 = smallHeap.entries.getD 0 default ∧
      ((heap_extract smallHeap).1 :: (heap_extract smallHeap).2.entries).Perm
        smallHeap.entries) :=
  ⟨⟨by decide, c9_multiset_preservation.1 smallHeap 0 (by decide)⟩,
    ⟨by decide, (c9_multiset_preservation.2 smallHeap (by decide)).1,
      (c9_multiset_preservation.2 smallHeap (by decide)).2⟩⟩

/-- C10: the empty signal returned by `heap_extract` is the null handle
itself.  The reachable non-empty heap `nullHeap` stores the null handle `0`
as its minimum, and extracting from it returns exactly the same value
(`default`, the model's NULL) as extracting from an empty heap, so the two
outcomes are indistinguishable by the return value alone. -/
theorem c10_null_handle_ambiguity :
    nullHeap.entries.length ≠ 0 ∧
    nullHeap.entries = [0, 5] ∧
    (heap_extract nullHeap).1 = (default : Nat) ∧
    (heap_extract (heap_new 2 natCmp)).1 = (default : Nat) ∧
    (heap_new 2 natCmp).entries.length = 0 := by decide

end CommandT
